import Mathlib

/- Formal model of the sound-generation scripts of convocli/notifier:
   scripts/generate-sounds.py, scripts/add-mechanical-sound.py and
   plugins/notifier/scripts/add-thock-sounds.py.

   Design of the shallow embedding:
   - Floating-point samples are modelled as exact rationals.
   - math.sin and math.exp are abstract function parameters collected in an
     Env record: sinTau x stands for sin(2 * pi * x) and exp for math.exp.
     The claims under check depend on them only through simple facts
     (boundedness of sin, positivity of exp) that are stated as hypotheses
     where needed.
   - random.random() is modelled by explicit streams of rationals: the field
     rand of Env maps a seed to the stream of draws produced after
     random.seed(seed), while functions that read the module generator
     without re-seeding it take the ambient stream as an argument.
   - Python int(x) is truncation toward zero, modelled by ratTrunc.
   - Fallible steps (struct.pack range errors, max() over an empty sequence)
     are modelled with Option. -/

namespace Notifier

/-- Floor of a rational written the standard way, num / den. -/
def ratFloor (q : ℚ) : ℤ := q.num / (q.den : ℤ)

/-- Model of Python int(x): truncation toward zero. -/
def ratTrunc (q : ℚ) : ℤ := if 0 ≤ q then ratFloor q else -ratFloor (-q)

/-- Round to nearest, used by the specification wording (round(x)). -/
def ratRound (q : ℚ) : ℤ := ratFloor (q + 1/2)

/-- Every script fixes sample_rate = 44100. -/
def sampleRate : ℚ := 44100

/-- num_samples = int(sample_rate * duration). A non-positive count gives an
empty Python list, hence the toNat. -/
def numSamples (duration : ℚ) : ℕ := (ratTrunc (sampleRate * duration)).toNat

/-- samples = [0.0] * num_samples. -/
def initBuffer (duration : ℚ) : List ℚ := List.replicate (numSamples duration) 0

/-- sample_int = int(max(-32767, min(32767, sample * 32767))), the quantizer of
the keyboard-click, mech and thock write loops. -/
def quantClamp (s : ℚ) : ℤ := ratTrunc (max (-32767) (min 32767 (s * 32767)))

/-- sample_int = int(sample * 32767), the quantizer of generate_tone,
generate_chord and the ascending-melody writer (no clamping). -/
def quantPlain (s : ℚ) : ℤ := ratTrunc (s * 32767)

/-- struct.pack with format h: succeeds exactly when the value fits a signed
16-bit integer. -/
def pack (z : ℤ) : Option ℤ := if -32768 ≤ z ∧ z ≤ 32767 then some z else none

/-- Write loop: quantize each sample and pack it; a pack failure aborts. -/
def packAll (quant : ℚ → ℤ) : List ℚ → Option (List ℤ)
  | [] => some []
  | s :: rest =>
    match pack (quant s), packAll quant rest with
    | some z, some zs => some (z :: zs)
    | _, _ => none

/-- max(abs(s) for s in samples); Python max raises ValueError on an empty
sequence, modelled as none. -/
def maxAbs : List ℚ → Option ℚ
  | [] => none
  | s :: rest => some (rest.foldl (fun m x => max m |x|) |s|)

/-- Final pass of the keyboard-click, mech and thock generators: find the peak,
normalize by it when it is positive, scale by volume, quantize with clamping. -/
def encode (samples : List ℚ) (volume : ℚ) : Option (List ℤ) :=
  (maxAbs samples).map fun maxSample =>
    let normalized :=
      if 0 < maxSample then samples.map (fun s => s * (1 / maxSample)) else samples
    let scaled := normalized.map (fun s => s * volume)
    scaled.map quantClamp

/-- Peak magnitude of a quantized sample list (measurement used to state the
peak property; 0 for an empty list). -/
def maxAbsZ (l : List ℤ) : ℤ := l.foldl (fun m z => max m |z|) 0

/-- Abstract mathematical environment: sinTau x models sin(2 * pi * x), exp
models math.exp, and rand seed is the stream of random.random() values drawn
after random.seed(seed). -/
structure Env where
  sinTau : ℚ → ℚ
  exp : ℚ → ℚ
  rand : ℕ → ℕ → ℚ

/-- Concrete environment used by counterexamples and witnesses. -/
def envZero : Env := Env.mk (fun _ => 0) (fun _ => 1) (fun _ _ => 0)

/-- Concrete environment whose oscillator is constantly one. -/
def envOne : Env := Env.mk (fun _ => 1) (fun _ => 1) (fun _ _ => 0)

/-- The indexed-accumulation loop shape shared by every synthesis component:
for i in range(m): if start + i < len(buf): buf[start + i] += f i. -/
def accum (f : ℕ → ℚ) (start m : ℕ) (buf : List ℚ) : List ℚ :=
  (List.range m).foldl
    (fun b i =>
      if start + i < b.length then b.set (start + i) (b.getD (start + i) 0 + f i) else b)
    buf

/-- Like accum, but each executed iteration also consumes one pseudo-random
draw; the state carries the buffer and the number of draws consumed so far,
and the body g receives the local index and the current draw position. -/
def accumPos (g : ℕ → ℕ → ℚ) (start m : ℕ) (bp : List ℚ × ℕ) : List ℚ × ℕ :=
  (List.range m).foldl
    (fun bp i =>
      if start + i < bp.1.length then
        (bp.1.set (start + i) (bp.1.getD (start + i) 0 + g i bp.2), bp.2 + 1)
      else bp)
    bp

/-- One timed synthesis component, the common shape of the hard-coded
click/clack/thock/noise loops of the three scripts. A noise burst carries the
constant seed the source re-seeds the module generator with just before its
loop; harmonic components carry (multiplier, weight) pairs. -/
structure SoundEvent where
  startOffsetSeconds : ℚ
  durationSeconds : ℚ
  decayRate : ℚ
  baseFrequencyHz : ℚ
  harmonics : List (ℚ × ℚ)
  gain : ℚ
  noiseSeed : Option ℕ := none

/-- start_sample = int(startOffset * sample_rate). -/
def startSample (e : SoundEvent) : ℕ := (ratTrunc (e.startOffsetSeconds * sampleRate)).toNat

/-- Number of loop iterations of the component: int(duration * sample_rate). -/
def durSamples (e : SoundEvent) : ℕ := numSamples e.durationSeconds

/-- Raw oscillator value of a harmonic event at local time t: the weighted sum
of sinTau over the harmonics. -/
def rawOsc (env : Env) (e : SoundEvent) (t : ℚ) : ℚ :=
  e.harmonics.foldl (fun acc mw => acc + mw.2 * env.sinTau (e.baseFrequencyHz * mw.1 * t)) 0

/-- Contribution of event e at local loop index i, following the source loops:
t = i / sample_rate, envelope = exp(-decay * t); a harmonic event adds the
enveloped harmonic sum times gain, a noise burst adds
(random() - 0.5) * 2 * envelope * gain with its own re-seeded stream. -/
def contrib (env : Env) (e : SoundEvent) (i : ℕ) : ℚ :=
  let t : ℚ := (i : ℚ) / sampleRate
  let envelope := env.exp (-(e.decayRate * t))
  match e.noiseSeed with
  | none =>
    (e.harmonics.foldl
      (fun acc mw => acc + mw.2 * env.sinTau (e.baseFrequencyHz * mw.1 * t) * envelope) 0) * e.gain
  | some seed => (env.rand seed i - 1/2) * 2 * envelope * e.gain

/-- One component loop: for i in range(durSamples): if start_sample + i within
the buffer: buf[start_sample + i] += contribution. -/
def applyEvent (env : Env) (e : SoundEvent) (buf : List ℚ) : List ℚ :=
  accum (contrib env e) (startSample e) (durSamples e) buf

/-- Mixing: a zero buffer of the total duration, with every event accumulated
into it in order. -/
def synthesize (env : Env) (events : List SoundEvent) (total : ℚ) : List ℚ :=
  events.foldl (fun buf e => applyEvent env e buf) (initBuffer total)

/-- Component 1 of generate_mechanical_keyboard_click: the high click. -/
def mechClick : SoundEvent :=
  SoundEvent.mk 0 (8/1000) 180 4500 [(1, 1), (2, 1/2), (3, 3/10)] (6/10) none

/-- Component 2: the mid clack, delayed 3 ms. -/
def mechClack : SoundEvent :=
  SoundEvent.mk (3/1000) (15/1000) 100 2000 [(1, 1), (3/2, 2/5)] (1/2) none

/-- Component 3: the low thock, delayed 5 ms. -/
def mechThock : SoundEvent :=
  SoundEvent.mk (5/1000) (3/100) 50 400 [(1, 1), (2, 3/10)] (2/5) none

/-- Component 4: the noise burst, re-seeded with the constant 42. -/
def mechNoise : SoundEvent :=
  SoundEvent.mk 0 (12/1000) 150 0 [] (15/100) (some 42)

/-- generate_mechanical_keyboard_click of add-mechanical-sound.py: the four
components mixed over 60 ms, then normalized, scaled and quantized. -/
def generateMechanicalKeyboardClick (env : Env) (volume : ℚ) : Option (List ℤ) :=
  encode (synthesize env [mechClick, mechClack, mechThock, mechNoise] (6/100)) volume

/-- Fade pass of generate_tone and generate_chord: fade out over the last 20
percent, then fade in over the first 5 percent (n is num_samples). -/
def applyFades (n i : ℕ) (sample : ℚ) : ℚ :=
  let s1 :=
    if (n : ℚ) * (8/10) < (i : ℚ) then
      sample * (1 - (((i : ℚ) - (n : ℚ) * (8/10)) / ((n : ℚ) * (2/10))))
    else sample
  if (i : ℚ) < (n : ℚ) * (5/100) then s1 * ((i : ℚ) / ((n : ℚ) * (5/100))) else s1

/-- Sample i of generate_tone: volume * sin(2 pi f i / rate) with fades. -/
def toneSample (env : Env) (frequency volume : ℚ) (n i : ℕ) : ℚ :=
  applyFades n i (volume * env.sinTau (frequency * (i : ℚ) / sampleRate))

/-- The sample list of generate_tone. -/
def generateToneSamples (env : Env) (frequency duration volume : ℚ) : List ℚ :=
  (List.range (numSamples duration)).map
    (toneSample env frequency volume (numSamples duration))

/-- generate_tone: samples, quantized without clamping and packed. -/
def generateTone (env : Env) (frequency duration volume : ℚ) : Option (List ℤ) :=
  packAll quantPlain (generateToneSamples env frequency duration volume)

/-- Sample i of generate_chord: per-frequency volume, summed then divided by
the frequency count, with fades. -/
def chordSample (env : Env) (frequencies : List ℚ) (volume : ℚ) (n i : ℕ) : ℚ :=
  applyFades n i
    ((frequencies.foldl (fun acc freq => acc + volume * env.sinTau (freq * (i : ℚ) / sampleRate)) 0)
      / (frequencies.length : ℚ))

/-- The sample list of generate_chord. -/
def generateChordSamples (env : Env) (frequencies : List ℚ) (duration volume : ℚ) : List ℚ :=
  (List.range (numSamples duration)).map
    (chordSample env frequencies volume (numSamples duration))

/-- generate_chord: samples, quantized without clamping and packed. -/
def generateChord (env : Env) (frequencies : List ℚ) (duration volume : ℚ) : Option (List ℤ) :=
  packAll quantPlain (generateChordSamples env frequencies duration volume)

/-- The three ascending tones of complete.wav: (frequency, start, duration). -/
def melodyTones : List (ℚ × ℚ × ℚ) :=
  [(52325/100, 0, 15/100), (65925/100, 15/100, 15/100), (78399/100, 3/10, 3/10)]

/-- Body of the melody loop at local index i of a tone of m samples: amplitude
0.25, fade in over the first 5 percent, fade out over the last 20 percent. -/
def melodyBody (env : Env) (frequency : ℚ) (m i : ℕ) : ℚ :=
  let sample := (25/100) * env.sinTau (frequency * (i : ℚ) / sampleRate)
  let s1 :=
    if (i : ℚ) < (m : ℚ) * (5/100) then sample * ((i : ℚ) / ((m : ℚ) * (5/100))) else sample
  if (m : ℚ) * (8/10) < (i : ℚ) then
    s1 * (1 - (((i : ℚ) - (m : ℚ) * (8/10)) / ((m : ℚ) * (2/10))))
  else s1

/-- One tone of the melody accumulated into the buffer at
start_sample = int(start * sample_rate), guarded by the buffer bound. -/
def melodyStep (env : Env) (buf : List ℚ) (ft : ℚ × ℚ × ℚ) : List ℚ :=
  accum (melodyBody env ft.1 (numSamples ft.2.2))
    ((ratTrunc (ft.2.1 * sampleRate)).toNat) (numSamples ft.2.2) buf

/-- The 0.6 s buffer of complete.wav with the three tones accumulated. -/
def melodySamples (env : Env) : List ℚ :=
  melodyTones.foldl (melodyStep env) (initBuffer (6/10))

/-- The ascending-melody writer of main: int(sample * 32767), packed. -/
def melodyQuantized (env : Env) : Option (List ℤ) := packAll quantPlain (melodySamples env)

/-- Per-sample body of generate_keyboard_click: three jittered frequencies at
the given volume, plus a noise draw, divided by four, with a squared attack
over the first 10 percent and a squared decay after 30 percent. r is the
ambient module-generator stream and pos the number of draws consumed. -/
def clickBody (env : Env) (r : ℕ → ℚ) (volume freqVar : ℚ) (clickSamples i pos : ℕ) : ℚ :=
  let frequencies := [3000 * freqVar, 4500 * freqVar, 6000 * freqVar]
  let sample :=
    frequencies.foldl (fun acc freq => acc + volume * env.sinTau (freq * (i : ℚ) / sampleRate)) 0
  let noise := (r pos - 1/2) * volume * (15/100)
  let s1 := (sample + noise) / ((frequencies.length : ℚ) + 1)
  let s2 :=
    if (i : ℚ) < (clickSamples : ℚ) * (1/10) then
      s1 * (((i : ℚ) / ((clickSamples : ℚ) * (1/10))) * ((i : ℚ) / ((clickSamples : ℚ) * (1/10))))
    else s1
  if (clickSamples : ℚ) * (3/10) < (i : ℚ) then
    s2 * (1 - ((((i : ℚ) - (clickSamples : ℚ) * (3/10)) / ((clickSamples : ℚ) * (7/10)))
      * (((i : ℚ) - (clickSamples : ℚ) * (3/10)) / ((clickSamples : ℚ) * (7/10)))))
  else s2

/-- One click of generate_keyboard_click: the frequency jitter draw at the
current position, then the per-sample loop with its noise draws, starting at
start_sample = int(k * (click_duration + gap_duration) * sample_rate). -/
def clickStep (env : Env) (r : ℕ → ℚ) (volume : ℚ) (clickSamples : ℕ)
    (bp : List ℚ × ℕ) (k : ℕ) : List ℚ × ℕ :=
  accumPos (clickBody env r volume (1 + (r bp.2 - 1/2) * (1/10)) clickSamples)
    ((ratTrunc ((k : ℚ) * (25/1000 + 35/1000) * sampleRate)).toNat) clickSamples
    (bp.1, bp.2 + 1)

/-- generate_keyboard_click of generate-sounds.py. It never seeds the module
generator itself: r is the ambient stream at entry. Per click it draws one
frequency jitter before the sample loop, then one noise draw per executed
iteration; the buffer covers num_clicks clicks plus the fixed gaps. -/
def generateKeyboardClick (env : Env) (r : ℕ → ℚ) (numClicks : ℕ) (volume : ℚ) : List ℚ :=
  ((List.range numClicks).foldl (clickStep env r volume (numSamples (25/1000)))
    (List.replicate
      (numSamples ((25/1000) * (numClicks : ℚ) + (35/1000) * ((numClicks : ℚ) - 1))) 0,
      0)).1

/-- gap_variations of generate_multiple_thock_clicks: nominal gap 0.045 plus a
jitter (random() - 0.5) * 0.02, one draw per gap, all drawn up front from the
stream r of the module generator right after random.seed(46). -/
def gapVariations (r : ℕ → ℚ) (numClicks : ℕ) : List ℚ :=
  (List.range (numClicks - 1)).map fun j => 45/1000 + (r j - 1/2) * (2/100)

/-- current_position of generate_multiple_thock_clicks before click k: starts
at 0 and advances by click_base_duration 0.08 plus the gap after each click
(the source only adds a gap while one remains, which getD with default 0
reproduces for every position that is actually used). -/
def clickPosition (gaps : List ℚ) : ℕ → ℚ
  | 0 => 0
  | k + 1 => clickPosition gaps k + 8/100 + gaps.getD k 0

/-- freq_variation of a thock click, as a function of its single draw x:
1 + (x - 0.5) * 0.08. -/
def freqVariationThock (x : ℚ) : ℚ := 1 + (x - 1/2) * (8/100)

/-- Filesystem operations performed by the write path of every generator:
open the final destination for writing, write one frame per sample, close. -/
inductive FsOp where
  | openW : FsOp
  | writeFrame : ℤ → FsOp
  | closeW : FsOp
deriving DecidableEq

/-- The operation trace of the WAV write loop: wave.open on the destination,
then writeframes once per sample, then close. No temporary file appears. -/
def wavWriteTrace (samples : List ℤ) : List FsOp :=
  FsOp.openW :: (samples.map FsOp.writeFrame ++ [FsOp.closeW])

/-- Frames committed to the destination once the first k operations of a trace
have executed (what an interruption after k operations leaves behind). -/
def destFrames (trace : List FsOp) (k : ℕ) : List ℤ :=
  (trace.take k).filterMap fun op =>
    match op with
    | FsOp.writeFrame z => some z
    | _ => none

/- Basic facts about the rational floor / truncation models. -/

lemma ratFloor_eq (q : ℚ) : ratFloor q = ⌊q⌋ := Rat.floor_def.symm

lemma ratTrunc_of_nonneg {q : ℚ} (h : 0 ≤ q) : ratTrunc q = ⌊q⌋ := by
  rw [ratTrunc, if_pos h, ratFloor_eq]

lemma ratTrunc_of_neg {q : ℚ} (h : ¬ 0 ≤ q) : ratTrunc q = ⌈q⌉ := by
  rw [ratTrunc, if_neg h, ratFloor_eq, Int.floor_neg, neg_neg]

lemma ratRound_eq (q : ℚ) : ratRound q = ⌊q + 1/2⌋ := by
  rw [ratRound, ratFloor_eq]

lemma ratTrunc_intCast (z : ℤ) : ratTrunc (z : ℚ) = z := by
  by_cases h : 0 ≤ (z : ℚ)
  · rw [ratTrunc_of_nonneg h, Int.floor_intCast]
  · rw [ratTrunc_of_neg h, Int.ceil_intCast]

lemma ratTrunc_eq_of (q : ℚ) (z : ℤ) (h0 : 0 ≤ q) (h1 : (z : ℚ) ≤ q) (h2 : q < z + 1) :
    ratTrunc q = z := by
  rw [ratTrunc_of_nonneg h0]
  rw [Int.floor_eq_iff]
  exact ⟨h1, h2⟩

lemma ratTrunc_nonpos {q : ℚ} (h : q ≤ 0) : ratTrunc q ≤ 0 := by
  by_cases h0 : 0 ≤ q
  · have hq : q = 0 := le_antisymm h h0
    subst hq
    rw [ratTrunc_of_nonneg le_rfl]
    simp
  · rw [ratTrunc_of_neg h0]
    exact Int.ceil_le.mpr (by exact_mod_cast h)

lemma abs_ratTrunc (q : ℚ) : |ratTrunc q| = ⌊|q|⌋ := by
  by_cases h : 0 ≤ q
  · rw [ratTrunc_of_nonneg h, abs_of_nonneg h, abs_of_nonneg (Int.floor_nonneg.mpr h)]
  · push_neg at h
    rw [ratTrunc_of_neg (not_le.mpr h), abs_of_neg h,
      abs_of_nonpos (Int.ceil_le.mpr (by exact_mod_cast h.le)), ← Int.floor_neg]

lemma ratTrunc_round_close (q : ℚ) : |ratTrunc q - ratRound q| ≤ 1 := by
  have hfl : ⌊q⌋ ≤ ratTrunc q ∧ ratTrunc q ≤ ⌊q⌋ + 1 := by
    by_cases h : 0 ≤ q
    · rw [ratTrunc_of_nonneg h]
      exact ⟨le_rfl, by omega⟩
    · rw [ratTrunc_of_neg h]
      exact ⟨Int.floor_le_ceil q, Int.ceil_le_floor_add_one q⟩
  have hrd : ⌊q⌋ ≤ ratRound q ∧ ratRound q ≤ ⌊q⌋ + 1 := by
    rw [ratRound_eq]
    constructor
    · exact Int.floor_le_floor (by linarith)
    · calc ⌊q + 1/2⌋ ≤ ⌊q + (1 : ℤ)⌋ := Int.floor_le_floor (by push_cast; linarith)
        _ = ⌊q⌋ + 1 := Int.floor_add_int q 1
  rw [abs_le]
  omega

/- Facts about buffer sizing. -/

lemma numSamples_of_nonpos {d : ℚ} (h : d ≤ 0) : numSamples d = 0 := by
  have hq : sampleRate * d ≤ 0 := by
    unfold sampleRate
    nlinarith
  exact Int.toNat_of_nonpos (ratTrunc_nonpos hq)

lemma numSamples_eq (d : ℚ) (n : ℕ) (h1 : (n : ℚ) ≤ sampleRate * d)
    (h2 : sampleRate * d < n + 1) : numSamples d = n := by
  have h0 : 0 ≤ sampleRate * d := le_trans (by positivity) h1
  unfold numSamples
  rw [ratTrunc_eq_of _ (n : ℤ) h0 (by exact_mod_cast h1) (by exact_mod_cast h2)]
  simp

/- The clamp of the click/mech/thock quantizer commutes with the scaling. -/

lemma clamp_scale (s : ℚ) :
    max (-32767) (min 32767 (s * 32767)) = max (-1) (min 1 s) * 32767 := by
  simp only [min_def, max_def]
  split_ifs <;> linarith

lemma quantClamp_eq (s : ℚ) : quantClamp s = ratTrunc (max (-1) (min 1 s) * 32767) := by
  rw [quantClamp, clamp_scale]

/-- C3: the specification says the quantization step stores
round(clamp(s, -1, 1) * 32767), rounding to nearest; at the concrete sample
s = 1/65534 the code (int truncation toward zero) stores 0 while
round-to-nearest gives 1, so the claim is false as stated. -/
theorem C3_round_cex :
    quantClamp (1/65534) = 0 ∧ ratRound (max (-1) (min 1 ((1 : ℚ)/65534)) * 32767) = 1 := by
  have harg : max (-1) (min 1 ((1 : ℚ)/65534)) * 32767 = 1/2 := by
    rw [min_eq_right (by norm_num), max_eq_right (by norm_num)]
    norm_num
  constructor
  · rw [quantClamp_eq, harg]
    exact ratTrunc_eq_of _ 0 (by norm_num) (by norm_num) (by norm_num)
  · rw [harg, ratRound_eq]
    norm_num

/-- C3 (amended): in the keyboard-click, mech and thock write loops the stored
value is int(clamp(s, -1, 1) * 32767) truncated toward zero (the clamp applied
by the code after scaling equals the clamp of the spec before scaling), which
differs from round-to-nearest by at most one; the generate_tone,
generate_chord and melody paths quantize without any clamp. -/
theorem C3_quantize_amended (s : ℚ) :
    quantClamp s = ratTrunc (max (-1) (min 1 s) * 32767) ∧
      |quantClamp s - ratRound (max (-1) (min 1 s) * 32767)| ≤ 1 := by
  refine ⟨quantClamp_eq s, ?_⟩
  rw [quantClamp_eq]
  exact ratTrunc_round_close _

/-- C4: the claim says the buffer has ceil(duration * 44100) samples; at
duration 1/1000 the code allocates int(44.1) = 44 samples while the ceiling is
45, so the claim is false as stated. -/
theorem C4_length_cex :
    (initBuffer (1/1000)).length = 44 ∧ (⌈sampleRate * (1/1000)⌉ : ℤ) = 45 ∧
      (44 : ℤ) ≠ 45 := by
  refine ⟨?_, ?_, by decide⟩
  · simp only [initBuffer, List.length_replicate]
    exact numSamples_eq _ _ (by norm_num [sampleRate]) (by norm_num [sampleRate])
  · rw [show sampleRate * (1/1000) = 441/10 by norm_num [sampleRate]]
    rw [Int.ceil_eq_iff] <;> norm_num

/-- C4 (amended): for every positive total duration the synthesized buffer has
exactly floor(duration * 44100) samples (int() truncation, not ceiling), and
every sample starts at 0.0. -/
theorem C4_buffer_amended (d : ℚ) (hd : 0 < d) :
    (initBuffer d).length = (⌊sampleRate * d⌋).toNat ∧ ∀ x ∈ initBuffer d, x = 0 := by
  constructor
  · have h0 : (0 : ℚ) ≤ sampleRate * d := by
      unfold sampleRate
      positivity
    simp [initBuffer, numSamples, ratTrunc_of_nonneg h0]
  · intro x hx
    exact List.eq_of_mem_replicate hx

/-- C4 witness at duration 1/1000. -/
theorem C4_buffer_amended_witness :
    (initBuffer (1/1000)).length = (⌊sampleRate * (1/1000)⌋).toNat ∧
      ∀ x ∈ initBuffer (1/1000), x = 0 :=
  C4_buffer_amended (1/1000) (by norm_num)

/-- C7: the claim says invalid parameters (non-positive duration, volume
outside [0,1]) fail with InvalidParameter and produce no output; the concrete
call generate_tone with duration -1 and volume 2 succeeds and writes an (empty)
file, so the claim is false as stated. -/
theorem C7_validation_cex : generateTone envZero 880 (-1) 2 = some [] := by
  unfold generateTone generateToneSamples
  rw [numSamples_of_nonpos (by norm_num)]
  simp [packAll]

/-- C7 (amended): the scripts perform no parameter validation at all: any
non-positive duration makes generate_tone succeed with an empty sample list
(and an empty file), for any volume whatsoever; and the normalize-and-encode
pass fails only on an empty buffer (the max() ValueError), never because of an
out-of-range volume. -/
theorem C7_validation_amended :
    (∀ (env : Env) (f v d : ℚ), d ≤ 0 → generateTone env f d v = some []) ∧
      (∀ (samples : List ℚ) (v : ℚ), encode samples v = none ↔ samples = []) := by
  constructor
  · intro env f v d hd
    unfold generateTone generateToneSamples
    rw [numSamples_of_nonpos hd]
    simp [packAll]
  · intro samples v
    cases samples with
    | nil => simp [encode, maxAbs]
    | cons s rest => simp [encode, maxAbs]

/-- C7 witness: duration -1 with volume 2 produces output; encoding an empty
buffer is the only failing case. -/
theorem C7_validation_amended_witness :
    generateTone envZero 880 (-1) 2 = some [] ∧ encode ([] : List ℚ) 1 = none :=
  ⟨C7_validation_amended.1 envZero 880 2 (-1) (by norm_num),
    (C7_validation_amended.2 [] 1).mpr rfl⟩

/- The write trace model for C9. -/

lemma filterMap_writeFrame (l : List ℤ) :
    (l.map FsOp.writeFrame).filterMap
      (fun op => match op with | FsOp.writeFrame z => some z | _ => none) = l := by
  induction l with
  | nil => rfl
  | cons z rest ih => simp [ih]

/-- C9: the claim says a write either produces a complete file or leaves
nothing observable; interrupting the concrete trace for samples [3, 7] after
two operations leaves one frame at the destination, which is neither empty nor
the complete payload, so the claim is false as stated. -/
theorem C9_atomic_cex :
    destFrames (wavWriteTrace [3, 7]) 2 ≠ [] ∧
      destFrames (wavWriteTrace [3, 7]) 2 ≠ [3, 7] := by
  decide

/-- C9 (amended): the generators open the final destination directly and write
frame by frame, with no temporary file or atomic finalize: after 1 + k trace
operations the destination already holds exactly the first k frames, so an
interruption mid-write leaves a partial file visible at the destination. -/
theorem C9_write_amended (samples : List ℤ) (k : ℕ) (hk : k ≤ samples.length) :
    destFrames (wavWriteTrace samples) (k + 1) = samples.take k := by
  unfold destFrames wavWriteTrace
  rw [List.take_succ_cons, List.take_append_of_le_length (by simpa using hk),
    ← List.map_take]
  simp only [List.filterMap_cons]
  exact filterMap_writeFrame _

/-- C9 witness: after two operations of the [3, 7] trace the destination holds
the first frame. -/
theorem C9_write_amended_witness :
    destFrames (wavWriteTrace [3, 7]) (1 + 1) = List.take 1 [3, 7] :=
  C9_write_amended [3, 7] 1 (by decide)

/- Pointwise characterization of the accumulation loops. -/

lemma ratTrunc_zero : ratTrunc 0 = 0 := by
  rw [ratTrunc_of_nonneg le_rfl]
  simp

lemma getD_set_self (l : List ℚ) (i : ℕ) (v : ℚ) (h : i < l.length) :
    (l.set i v).getD i 0 = v := by
  rw [List.getD_eq_getElem _ _ (by simpa using h)]
  rw [List.getElem_set_self]

lemma getD_set_ne (l : List ℚ) (i j : ℕ) (v : ℚ) (hne : i ≠ j) (hj : j < l.length) :
    (l.set i v).getD j 0 = l.getD j 0 := by
  rw [List.getD_eq_getElem _ _ (by simpa using hj), List.getD_eq_getElem _ _ hj]
  exact List.getElem_set_ne hne _

lemma getD_replicate (n j : ℕ) (hj : j < n) : (List.replicate n (0 : ℚ)).getD j 0 = 0 := by
  rw [List.getD_eq_getElem _ _ (by simpa using hj)]
  rw [List.getElem_replicate]

lemma accum_succ (f : ℕ → ℚ) (start m : ℕ) (buf : List ℚ) :
    accum f start (m + 1) buf =
      (let b := accum f start m buf
       if start + m < b.length then b.set (start + m) (b.getD (start + m) 0 + f m) else b) := by
  unfold accum
  rw [List.range_succ, List.foldl_append]
  rfl

lemma accum_length (f : ℕ → ℚ) (start m : ℕ) (buf : List ℚ) :
    (accum f start m buf).length = buf.length := by
  induction m with
  | zero => rfl
  | succ m ih =>
    rw [accum_succ]
    dsimp only
    split_ifs with h
    · rw [List.length_set]
      exact ih
    · exact ih

lemma accum_getD (f : ℕ → ℚ) (start m : ℕ) (buf : List ℚ) (j : ℕ) (hj : j < buf.length) :
    (accum f start m buf).getD j 0 =
      buf.getD j 0 + (if start ≤ j ∧ j < start + m then f (j - start) else 0) := by
  induction m with
  | zero =>
    have hw : ¬ (start ≤ j ∧ j < start + 0) := by omega
    simp [accum, hw]
  | succ m ih =>
    rw [accum_succ]
    have hlen : (accum f start m buf).length = buf.length := accum_length f start m buf
    dsimp only
    by_cases hg : start + m < (accum f start m buf).length
    · rw [if_pos hg]
      by_cases hjm : j = start + m
      · subst hjm
        rw [getD_set_self _ _ _ hg, ih]
        rw [if_neg (show ¬ (start ≤ start + m ∧ start + m < start + m) by omega),
          if_pos (show start ≤ start + m ∧ start + m < start + (m + 1) by omega)]
        simp
      · rw [getD_set_ne (accum f start m buf) (start + m) j _ (Ne.symm hjm) (by omega), ih]
        by_cases hw : start ≤ j ∧ j < start + m
        · rw [if_pos hw, if_pos (by omega)]
        · rw [if_neg hw, if_neg (by omega)]
    · rw [if_neg hg]
      rw [ih]
      by_cases hw : start ≤ j ∧ j < start + m
      · rw [if_pos hw, if_pos (by omega)]
      · rw [if_neg hw, if_neg (by omega)]

lemma accumPos_succ (g : ℕ → ℕ → ℚ) (start m : ℕ) (bp : List ℚ × ℕ) :
    accumPos g start (m + 1) bp =
      (let bq := accumPos g start m bp
       if start + m < bq.1.length then
         (bq.1.set (start + m) (bq.1.getD (start + m) 0 + g m bq.2), bq.2 + 1)
       else bq) := by
  unfold accumPos
  rw [List.range_succ, List.foldl_append]
  rfl

lemma accumPos_fst_length (g : ℕ → ℕ → ℚ) (start m : ℕ) (bp : List ℚ × ℕ) :
    (accumPos g start m bp).1.length = bp.1.length := by
  induction m with
  | zero => rfl
  | succ m ih =>
    rw [accumPos_succ]
    dsimp only
    split_ifs with h
    · rw [List.length_set]
      exact ih
    · exact ih

lemma accumPos_snd (g : ℕ → ℕ → ℚ) (start m : ℕ) (bp : List ℚ × ℕ)
    (hall : start + m ≤ bp.1.length) : (accumPos g start m bp).2 = bp.2 + m := by
  induction m with
  | zero => rfl
  | succ m ih =>
    rw [accumPos_succ]
    have hlen : (accumPos g start m bp).1.length = bp.1.length := accumPos_fst_length g start m bp
    dsimp only
    rw [if_pos (by omega)]
    dsimp only
    rw [ih (by omega)]
    omega

lemma accumPos_getD (g : ℕ → ℕ → ℚ) (start m : ℕ) (bp : List ℚ × ℕ) (j : ℕ)
    (hall : start + m ≤ bp.1.length) (hj : j < bp.1.length) :
    (accumPos g start m bp).1.getD j 0 =
      bp.1.getD j 0 +
        (if start ≤ j ∧ j < start + m then g (j - start) (bp.2 + (j - start)) else 0) := by
  induction m with
  | zero =>
    have hw : ¬ (start ≤ j ∧ j < start + 0) := by omega
    simp [accumPos, hw]
  | succ m ih =>
    rw [accumPos_succ]
    have hlen : (accumPos g start m bp).1.length = bp.1.length := accumPos_fst_length g start m bp
    dsimp only
    rw [if_pos (by omega)]
    dsimp only
    by_cases hjm : j = start + m
    · subst hjm
      rw [getD_set_self _ _ _ (by omega), ih (by omega)]
      rw [if_neg (show ¬ (start ≤ start + m ∧ start + m < start + m) by omega),
        if_pos (show start ≤ start + m ∧ start + m < start + (m + 1) by omega),
        accumPos_snd g start m bp (by omega)]
      simp
    · rw [getD_set_ne (accumPos g start m bp).1 (start + m) j _ (Ne.symm hjm) (by omega),
        ih (by omega)]
      by_cases hw : start ≤ j ∧ j < start + m
      · rw [if_pos hw, if_pos (by omega)]
      · rw [if_neg hw, if_neg (by omega)]

/- Folding helpers for the harmonic sums. -/

lemma foldl_add_shift {α : Type} (h : α → ℚ) (l : List α) (a : ℚ) :
    l.foldl (fun acc x => acc + h x) a = a + l.foldl (fun acc x => acc + h x) 0 := by
  induction l generalizing a with
  | nil => simp
  | cons x xs ih =>
    simp only [List.foldl_cons]
    rw [ih (a + h x), ih (0 + h x)]
    ring

lemma foldl_term_mul {α : Type} (h : α → ℚ) (c : ℚ) (l : List α) (a : ℚ) :
    l.foldl (fun acc x => acc + h x * c) a = a + l.foldl (fun acc x => acc + h x) 0 * c := by
  induction l generalizing a with
  | nil => simp
  | cons x xs ih =>
    simp only [List.foldl_cons]
    rw [ih (a + h x * c), foldl_add_shift h xs (0 + h x)]
    ring

lemma contrib_harmonic (env : Env) (e : SoundEvent) (i : ℕ) (hn : e.noiseSeed = none) :
    contrib env e i =
      rawOsc env e ((i : ℚ) / sampleRate) *
        env.exp (-(e.decayRate * ((i : ℚ) / sampleRate))) * e.gain := by
  unfold contrib rawOsc
  rw [hn]
  dsimp only
  rw [foldl_term_mul (fun mw => mw.2 * env.sinTau (e.baseFrequencyHz * mw.1 * ((i : ℚ) / sampleRate)))
    (env.exp (-(e.decayRate * ((i : ℚ) / sampleRate)))) e.harmonics 0]
  ring

/- Pointwise view of one component loop. -/

lemma applyEvent_length (env : Env) (e : SoundEvent) (buf : List ℚ) :
    (applyEvent env e buf).length = buf.length :=
  accum_length _ _ _ _

lemma applyEvent_getD (env : Env) (e : SoundEvent) (buf : List ℚ) (j : ℕ)
    (hj : j < buf.length) :
    (applyEvent env e buf).getD j 0 =
      buf.getD j 0 +
        (if startSample e ≤ j ∧ j < startSample e + durSamples e then
          contrib env e (j - startSample e) else 0) :=
  accum_getD _ _ _ _ _ hj

lemma localTime_bounds (d : ℚ) (i : ℕ) (hi : i < numSamples d) :
    0 ≤ (i : ℚ) / sampleRate ∧ (i : ℚ) / sampleRate < d := by
  have h1 : 0 < ratTrunc (sampleRate * d) := by
    by_contra h0
    push_neg at h0
    have : numSamples d = 0 := Int.toNat_of_nonpos h0
    omega
  have h0 : 0 ≤ sampleRate * d := by
    by_contra h0
    push_neg at h0
    have := ratTrunc_nonpos h0.le
    omega
  have hfl : ratTrunc (sampleRate * d) = ⌊sampleRate * d⌋ := ratTrunc_of_nonneg h0
  have hlt : (i : ℤ) < ⌊sampleRate * d⌋ := by
    rw [← hfl]
    exact Int.lt_toNat.mp (by simpa [numSamples] using hi)
  have hltq : (i : ℚ) < sampleRate * d := by
    have hle : ((i : ℤ) : ℚ) + 1 ≤ (⌊sampleRate * d⌋ : ℚ) := by
      exact_mod_cast hlt
    have := Int.floor_le (sampleRate * d)
    push_cast at hle ⊢
    linarith
  constructor
  · unfold sampleRate
    positivity
  · rw [div_lt_iff₀ (by norm_num [sampleRate])]
    have h44 : (0 : ℚ) < sampleRate := by norm_num [sampleRate]
    nlinarith [hltq]

lemma list_eq_of_getD (l1 l2 : List ℚ) (hlen : l1.length = l2.length)
    (h : ∀ j, j < l1.length → l1.getD j 0 = l2.getD j 0) : l1 = l2 := by
  apply List.ext_getElem hlen
  intro i h1 h2
  have hD := h i h1
  rwa [List.getD_eq_getElem _ 0 h1, List.getD_eq_getElem _ 0 h2] at hD

lemma getD_zipWith_add (l1 l2 : List ℚ) (j : ℕ) (h1 : j < l1.length) (h2 : j < l2.length) :
    (List.zipWith (· + ·) l1 l2).getD j 0 = l1.getD j 0 + l2.getD j 0 := by
  have hz : j < (List.zipWith (· + ·) l1 l2).length := by
    rw [List.length_zipWith]
    omega
  rw [List.getD_eq_getElem _ 0 hz, List.getD_eq_getElem _ 0 h1, List.getD_eq_getElem _ 0 h2]
  exact List.getElem_zipWith

/-- C5: the claim asserts that the sample just before the window bound always
receives a nonzero contribution; a harmonic event with gain 0 (the spec itself
uses gain 0 in a scenario) contributes exactly zero there, so the claim is
false as stated. The event here has two in-window samples and the buffer has
room for both; index 1 is the last in-window sample and stays exactly 0. -/
theorem C5_boundary_cex :
    durSamples (SoundEvent.mk 0 (1/22050) 35 350 [(1, 1)] 0 none) = 2 ∧
      startSample (SoundEvent.mk 0 (1/22050) 35 350 [(1, 1)] 0 none) = 0 ∧
      (applyEvent envOne (SoundEvent.mk 0 (1/22050) 35 350 [(1, 1)] 0 none)
        [0, 0, 0]).getD 1 0 = 0 := by
  have hd : durSamples (SoundEvent.mk 0 (1/22050) 35 350 [(1, 1)] 0 none) = 2 := by
    unfold durSamples
    exact numSamples_eq _ _ (by norm_num [sampleRate]) (by norm_num [sampleRate])
  have hs : startSample (SoundEvent.mk 0 (1/22050) 35 350 [(1, 1)] 0 none) = 0 := by
    unfold startSample
    simp [ratTrunc_zero]
  refine ⟨hd, hs, ?_⟩
  rw [applyEvent_getD _ _ _ _ (by norm_num)]
  rw [hd, hs]
  rw [if_pos (by omega)]
  simp [contrib]

/-- C5 (amended): a component loop leaves every sample outside the index
window [start_sample, start_sample + durSamples) exactly unchanged; inside the
window it adds exactly its contribution at local index j - start_sample; every
executed local index has local time t = i / 44100 in [0, durationSeconds), so
the sample at t = durationSeconds is excluded; and the last in-window sample
has a strictly positive envelope, so for a harmonic event it receives a
nonzero contribution whenever the oscillator sum and the gain there are
nonzero (a gain-0 event contributes zero everywhere). -/
theorem C5_window_amended (env : Env) (e : SoundEvent) (buf : List ℚ) (j : ℕ)
    (hj : j < buf.length) :
    ((j < startSample e ∨ startSample e + durSamples e ≤ j) →
        (applyEvent env e buf).getD j 0 = buf.getD j 0) ∧
      (startSample e ≤ j ∧ j < startSample e + durSamples e →
        (applyEvent env e buf).getD j 0 = buf.getD j 0 + contrib env e (j - startSample e)) ∧
      (∀ i : ℕ, i < durSamples e →
        0 ≤ (i : ℚ) / sampleRate ∧ (i : ℚ) / sampleRate < e.durationSeconds) ∧
      (0 < durSamples e → j = startSample e + durSamples e - 1 → e.noiseSeed = none →
        (∀ x : ℚ, 0 < env.exp x) → e.gain ≠ 0 →
        rawOsc env e ((((durSamples e - 1 : ℕ) : ℚ)) / sampleRate) ≠ 0 →
        (applyEvent env e buf).getD j 0 ≠ buf.getD j 0) := by
  refine ⟨?_, ?_, ?_, ?_⟩
  · intro hout
    rw [applyEvent_getD _ _ _ _ hj, if_neg (by omega)]
    ring
  · intro hin
    rw [applyEvent_getD _ _ _ _ hj, if_pos hin]
  · intro i hi
    exact localTime_bounds e.durationSeconds i hi
  · intro hm hjeq hn hexp hg hraw
    rw [applyEvent_getD _ _ _ _ hj, if_pos (by omega)]
    have hloc : j - startSample e = durSamples e - 1 := by omega
    rw [hloc]
    have hc : contrib env e (durSamples e - 1) ≠ 0 := by
      rw [contrib_harmonic env e _ hn]
      exact mul_ne_zero (mul_ne_zero hraw (ne_of_gt (hexp _))) hg
    intro habs
    apply hc
    linarith [habs]

/-- C5 witness: a harmonic event with gain 9/10 over two samples in a buffer of
three, inspected at the last in-window index 1. -/
theorem C5_window_amended_witness :
    ((1 < startSample (SoundEvent.mk 0 (1/22050) 35 350 [(1, 1)] (9/10) none) ∨
        startSample (SoundEvent.mk 0 (1/22050) 35 350 [(1, 1)] (9/10) none) +
          durSamples (SoundEvent.mk 0 (1/22050) 35 350 [(1, 1)] (9/10) none) ≤ 1) →
        (applyEvent envOne (SoundEvent.mk 0 (1/22050) 35 350 [(1, 1)] (9/10) none)
          [0, 0, 0]).getD 1 0 = ([0, 0, 0] : List ℚ).getD 1 0) ∧
      (startSample (SoundEvent.mk 0 (1/22050) 35 350 [(1, 1)] (9/10) none) ≤ 1 ∧
          1 < startSample (SoundEvent.mk 0 (1/22050) 35 350 [(1, 1)] (9/10) none) +
            durSamples (SoundEvent.mk 0 (1/22050) 35 350 [(1, 1)] (9/10) none) →
        (applyEvent envOne (SoundEvent.mk 0 (1/22050) 35 350 [(1, 1)] (9/10) none)
          [0, 0, 0]).getD 1 0 =
          ([0, 0, 0] : List ℚ).getD 1 0 +
            contrib envOne (SoundEvent.mk 0 (1/22050) 35 350 [(1, 1)] (9/10) none)
              (1 - startSample (SoundEvent.mk 0 (1/22050) 35 350 [(1, 1)] (9/10) none))) ∧
      (∀ i : ℕ, i < durSamples (SoundEvent.mk 0 (1/22050) 35 350 [(1, 1)] (9/10) none) →
        0 ≤ (i : ℚ) / sampleRate ∧
          (i : ℚ) / sampleRate <
            (SoundEvent.mk 0 (1/22050) 35 350 [(1, 1)] (9/10) none).durationSeconds) ∧
      (0 < durSamples (SoundEvent.mk 0 (1/22050) 35 350 [(1, 1)] (9/10) none) →
        1 = startSample (SoundEvent.mk 0 (1/22050) 35 350 [(1, 1)] (9/10) none) +
            durSamples (SoundEvent.mk 0 (1/22050) 35 350 [(1, 1)] (9/10) none) - 1 →
        (SoundEvent.mk 0 (1/22050) 35 350 [(1, 1)] (9/10) none).noiseSeed = none →
        (∀ x : ℚ, 0 < envOne.exp x) →
        (SoundEvent.mk 0 (1/22050) 35 350 [(1, 1)] (9/10) none).gain ≠ 0 →
        rawOsc envOne (SoundEvent.mk 0 (1/22050) 35 350 [(1, 1)] (9/10) none)
            ((((durSamples (SoundEvent.mk 0 (1/22050) 35 350 [(1, 1)] (9/10) none) - 1 : ℕ) : ℚ)) /
              sampleRate) ≠ 0 →
        (applyEvent envOne (SoundEvent.mk 0 (1/22050) 35 350 [(1, 1)] (9/10) none)
          [0, 0, 0]).getD 1 0 ≠ ([0, 0, 0] : List ℚ).getD 1 0) :=
  C5_window_amended envOne (SoundEvent.mk 0 (1/22050) 35 350 [(1, 1)] (9/10) none)
    [0, 0, 0] 1 (by norm_num)

/-- C6: mixing is purely additive: for two events with disjoint index windows,
synthesizing each alone over the same total duration and adding the buffers
sample-wise equals synthesizing both in one call. -/
theorem C6_additivity (env : Env) (e1 e2 : SoundEvent) (total : ℚ)
    (hdisj : startSample e1 + durSamples e1 ≤ startSample e2 ∨
      startSample e2 + durSamples e2 ≤ startSample e1) :
    synthesize env [e1, e2] total =
      List.zipWith (· + ·) (synthesize env [e1] total) (synthesize env [e2] total) := by
  unfold synthesize
  simp only [List.foldl_cons, List.foldl_nil]
  have hlen1 : (applyEvent env e1 (initBuffer total)).length = (initBuffer total).length :=
    applyEvent_length env e1 (initBuffer total)
  have hlen2 : (applyEvent env e2 (initBuffer total)).length = (initBuffer total).length :=
    applyEvent_length env e2 (initBuffer total)
  have hlen12 :
      (applyEvent env e2 (applyEvent env e1 (initBuffer total))).length =
        (initBuffer total).length := by
    rw [applyEvent_length, hlen1]
  apply list_eq_of_getD
  · rw [List.length_zipWith, hlen12, hlen1, hlen2, min_self]
  · intro j hjL
    have hjlen : j < (initBuffer total).length := by rwa [hlen12] at hjL
    have hz : (initBuffer total).getD j 0 = 0 := by
      unfold initBuffer
      exact getD_replicate _ _ (by simpa [initBuffer] using hjlen)
    rw [getD_zipWith_add _ _ j (by rw [hlen1]; exact hjlen) (by rw [hlen2]; exact hjlen)]
    rw [applyEvent_getD env e2 (applyEvent env e1 (initBuffer total)) j
      (by rw [hlen1]; exact hjlen)]
    rw [applyEvent_getD env e1 (initBuffer total) j hjlen]
    rw [applyEvent_getD env e2 (initBuffer total) j hjlen]
    rw [hz]
    ring

/-- C6 witness: two harmonic events whose index windows [0, 2) and [4, 6) are
disjoint, mixed over a 10-sample buffer. -/
theorem C6_additivity_witness :
    synthesize envOne
        [SoundEvent.mk 0 (1/22050) 35 350 [(1, 1)] (9/10) none,
          SoundEvent.mk (1/11025) (1/22050) 35 350 [(1, 1)] (9/10) none] (1/4410) =
      List.zipWith (· + ·)
        (synthesize envOne [SoundEvent.mk 0 (1/22050) 35 350 [(1, 1)] (9/10) none] (1/4410))
        (synthesize envOne
          [SoundEvent.mk (1/11025) (1/22050) 35 350 [(1, 1)] (9/10) none] (1/4410)) := by
  apply C6_additivity
  left
  have h1 : startSample (SoundEvent.mk 0 (1/22050) 35 350 [(1, 1)] (9/10) none) = 0 := by
    unfold startSample
    simp [ratTrunc_zero]
  have h2 : durSamples (SoundEvent.mk 0 (1/22050) 35 350 [(1, 1)] (9/10) none) = 2 := by
    unfold durSamples
    exact numSamples_eq _ _ (by norm_num [sampleRate]) (by norm_num [sampleRate])
  have h3 : startSample (SoundEvent.mk (1/11025) (1/22050) 35 350 [(1, 1)] (9/10) none) = 4 := by
    unfold startSample
    rw [ratTrunc_eq_of _ 4 (by norm_num [sampleRate]) (by norm_num [sampleRate])
      (by norm_num [sampleRate])]
    rfl
  omega

/- Sequencing of the multi-thock clicks (C8). -/

lemma gapVariations_getD (r : ℕ → ℚ) (n k : ℕ) (hk : k < n - 1) :
    (gapVariations r n).getD k 0 = 45/1000 + (r k - 1/2) * (2/100) := by
  unfold gapVariations
  rw [List.getD_eq_getElem _ 0 (by simpa using hk)]
  simp

/-- C8: in a multi-thock sequence the starting offset of click k is the sum
over j < k of (templateDuration 0.08 + gap_j), where gap_j is the nominal gap
0.045 plus its jitter, one seeded draw per gap; and with every draw in [0, 1)
each gap jitter lies within [-0.02/2, 0.02/2] and each frequency jitter within
[-0.08/2, 0.08/2]. -/
theorem C8_sequencing (r : ℕ → ℚ) (n : ℕ) (hr : ∀ i, 0 ≤ r i ∧ r i < 1) :
    (∀ k, k < n →
        clickPosition (gapVariations r n) k =
          ∑ j ∈ Finset.range k, (8/100 + (45/1000 + (r j - 1/2) * (2/100)))) ∧
      (∀ j, |(r j - 1/2) * (2/100)| ≤ (2/100) / 2) ∧
      (∀ j, |freqVariationThock (r j) - 1| ≤ (8/100) / 2) := by
  refine ⟨?_, ?_, ?_⟩
  · intro k
    induction k with
    | zero =>
      intro _
      simp [clickPosition]
    | succ k ih =>
      intro hk
      have hstep :
          clickPosition (gapVariations r n) (k + 1) =
            clickPosition (gapVariations r n) k + 8/100 + (gapVariations r n).getD k 0 := rfl
      rw [hstep, ih (by omega), gapVariations_getD r n k (by omega), Finset.sum_range_succ]
      ring
  · intro j
    have hj := hr j
    rw [abs_le]
    constructor
    · linarith [hj.1, hj.2]
    · linarith [hj.1, hj.2]
  · intro j
    have hj := hr j
    unfold freqVariationThock
    rw [abs_le]
    constructor
    · linarith [hj.1, hj.2]
    · linarith [hj.1, hj.2]

/-- C8 witness at the constant stream 1/2 with three clicks. -/
theorem C8_sequencing_witness :
    (∀ k, k < 3 →
        clickPosition (gapVariations (fun _ : ℕ => (1 : ℚ)/2) 3) k =
          ∑ j ∈ Finset.range k,
            (8/100 + (45/1000 + (((fun _ : ℕ => (1 : ℚ)/2) j) - 1/2) * (2/100)))) ∧
      (∀ j : ℕ, |(((fun _ : ℕ => (1 : ℚ)/2) j) - 1/2) * (2/100)| ≤ (2/100) / 2) ∧
      (∀ j : ℕ, |freqVariationThock ((fun _ : ℕ => (1 : ℚ)/2) j) - 1| ≤ (8/100) / 2) :=
  C8_sequencing (fun _ : ℕ => (1 : ℚ)/2) 3 (fun _ => ⟨by norm_num, by norm_num⟩)

/- Fold-maximum helpers, generic in the mapped value, for the peak analysis. -/

lemma foldl_max_init_le {β γ : Type} [LinearOrder γ] (g : β → γ) (l : List β) (a : γ) :
    a ≤ l.foldl (fun m x => max m (g x)) a := by
  induction l generalizing a with
  | nil => exact le_rfl
  | cons y ys ih => exact le_trans (le_max_left a (g y)) (ih (max a (g y)))

lemma foldl_max_mem_le {β γ : Type} [LinearOrder γ] (g : β → γ) (l : List β) :
    ∀ (a : γ) (x : β), x ∈ l → g x ≤ l.foldl (fun m x => max m (g x)) a := by
  induction l with
  | nil =>
    intro a x hx
    cases hx
  | cons y ys ih =>
    intro a x hx
    rcases List.mem_cons.mp hx with rfl | h
    · exact le_trans (le_max_right a (g x)) (foldl_max_init_le g ys (max a (g x)))
    · exact ih (max a (g y)) x h

lemma foldl_max_le {β γ : Type} [LinearOrder γ] (g : β → γ) (l : List β) (B : γ) :
    ∀ a : γ, a ≤ B → (∀ x ∈ l, g x ≤ B) → l.foldl (fun m x => max m (g x)) a ≤ B := by
  induction l with
  | nil =>
    intro a ha _
    exact ha
  | cons y ys ih =>
    intro a ha h
    exact ih (max a (g y)) (max_le ha (h y (List.mem_cons_self y ys)))
      (fun x hx => h x (List.mem_cons_of_mem y hx))

lemma foldl_max_attained {β γ : Type} [LinearOrder γ] (g : β → γ) (l : List β) (a : γ) :
    l.foldl (fun m x => max m (g x)) a = a ∨
      ∃ x ∈ l, l.foldl (fun m x => max m (g x)) a = g x := by
  induction l generalizing a with
  | nil => exact Or.inl rfl
  | cons y ys ih =>
    rcases ih (max a (g y)) with h | ⟨x, hx, hfx⟩
    · rcases max_cases a (g y) with ⟨he, _⟩ | ⟨he, _⟩
      · left
        rw [List.foldl_cons, h, he]
      · right
        exact ⟨y, List.mem_cons_self y ys, by rw [List.foldl_cons, h, he]⟩
    · right
      exact ⟨x, List.mem_cons_of_mem y hx, by rw [List.foldl_cons]; exact hfx⟩

/- The peak property of the encoder (C1). -/

lemma quantClamp_of_abs_le {s : ℚ} (h : |s| ≤ 1) : quantClamp s = ratTrunc (s * 32767) := by
  rw [abs_le] at h
  unfold quantClamp
  rw [min_eq_right (by nlinarith [h.2]), max_eq_right (by nlinarith [h.1])]

lemma abs_quantClamp_le {s : ℚ} {v : ℚ} (hv : 0 ≤ v) (h : |s| ≤ v) (hv1 : v ≤ 1) :
    |quantClamp s| ≤ ⌊v * 32767⌋ := by
  rw [quantClamp_of_abs_le (le_trans h hv1), abs_ratTrunc, abs_mul]
  rw [show |(32767 : ℚ)| = 32767 by norm_num]
  exact Int.floor_le_floor (by nlinarith [h])

lemma abs_quantClamp_eq {s : ℚ} {v : ℚ} (hv : 0 ≤ v) (h : |s| = v) (hv1 : v ≤ 1) :
    |quantClamp s| = ⌊v * 32767⌋ := by
  rw [quantClamp_of_abs_le (by rw [h]; exact hv1), abs_ratTrunc, abs_mul]
  rw [show |(32767 : ℚ)| = 32767 by norm_num, h]

/-- C1: for a nonempty buffer and volume in [0,1], the encode pass succeeds;
a silent buffer skips normalization (no division by zero) and yields an
all-zero output, and otherwise the output peak magnitude is within 1 of
round(volume * 32767) (the code truncates, giving floor(volume * 32767)). -/
theorem C1_encode_peak (buf : List ℚ) (v : ℚ) (hne : buf ≠ []) (hv0 : 0 ≤ v) (hv1 : v ≤ 1) :
    ∃ out, encode buf v = some out ∧
      ((∀ x ∈ buf, x = 0) → out = List.replicate buf.length 0) ∧
      ((∃ x ∈ buf, x ≠ 0) → |maxAbsZ out - ratRound (v * 32767)| ≤ 1) := by
  obtain ⟨s, rest, rfl⟩ := List.exists_cons_of_ne_nil hne
  set M := rest.foldl (fun m x => max m |x|) |s| with hM
  have hub : ∀ x ∈ s :: rest, |x| ≤ M := by
    intro x hx
    rcases List.mem_cons.mp hx with rfl | h
    · exact foldl_max_init_le _ rest |x|
    · exact foldl_max_mem_le _ rest |s| x h
  have hat : ∃ x ∈ s :: rest, |x| = M := by
    rcases foldl_max_attained (fun x : ℚ => |x|) rest |s| with h | ⟨x, hx, hfx⟩
    · exact ⟨s, List.mem_cons_self s rest, h.symm⟩
    · exact ⟨x, List.mem_cons_of_mem s hx, hfx.symm⟩
  have hM0 : 0 ≤ M := le_trans (abs_nonneg s) (hub s (List.mem_cons_self s rest))
  by_cases hMpos : 0 < M
  · -- a nonzero sample exists: normalization happens
    have henc : encode (s :: rest) v =
        some ((((s :: rest).map (fun x => x * (1 / M))).map (fun x => x * v)).map quantClamp) := by
      unfold encode
      rw [show maxAbs (s :: rest) = some M from rfl, Option.map_some']
      dsimp only
      rw [if_pos hMpos]
    refine ⟨_, henc, ?_, ?_⟩
    · intro hall
      exfalso
      obtain ⟨x, hx, hfx⟩ := hat
      rw [hall x hx] at hfx
      simp at hfx
      rw [← hfx] at hMpos
      exact lt_irrefl 0 hMpos
    · intro _
      set out := (((s :: rest).map (fun x => x * (1 / M))).map (fun x => x * v)).map quantClamp
        with hout_def
      have hMdiv : M * (1 / M) = 1 := mul_one_div_cancel (ne_of_gt hMpos)
      have hscale : ∀ x : ℚ, |x * (1 / M) * v| = |x| * (1 / M) * v := by
        intro x
        rw [abs_mul, abs_mul, abs_of_nonneg hv0,
          abs_of_nonneg (by positivity : (0 : ℚ) ≤ 1 / M)]
      have hout : ∀ z ∈ out, |z| ≤ ⌊v * 32767⌋ := by
        intro z hz
        rw [hout_def] at hz
        simp only [List.map_map, List.mem_map, Function.comp] at hz
        obtain ⟨x, hx, rfl⟩ := hz
        apply abs_quantClamp_le hv0 _ hv1
        rw [hscale x]
        have hdiv : |x| * (1 / M) ≤ 1 := by
          rw [mul_one_div, div_le_one hMpos]
          exact hub x hx
        calc |x| * (1 / M) * v ≤ 1 * v := mul_le_mul_of_nonneg_right hdiv hv0
          _ = v := one_mul v
      obtain ⟨x0, hx0, hx0M⟩ := hat
      have hmem0 : quantClamp (x0 * (1 / M) * v) ∈ out := by
        rw [hout_def]
        simp only [List.map_map, List.mem_map, Function.comp]
        exact ⟨x0, hx0, rfl⟩
      have habs0 : |quantClamp (x0 * (1 / M) * v)| = ⌊v * 32767⌋ := by
        apply abs_quantClamp_eq hv0 _ hv1
        rw [hscale x0, hx0M, hMdiv, one_mul]
      have hfl0 : (0 : ℤ) ≤ ⌊v * 32767⌋ := Int.floor_nonneg.mpr (by positivity)
      have hpeak : maxAbsZ out = ⌊v * 32767⌋ := by
        unfold maxAbsZ
        apply le_antisymm
        · exact foldl_max_le (fun z : ℤ => |z|) out _ 0 hfl0 hout
        · have hmle := foldl_max_mem_le (fun z : ℤ => |z|) out 0 _ hmem0
          dsimp only at hmle
          rw [habs0] at hmle
          exact hmle
      rw [hpeak]
      have hcl := ratTrunc_round_close (v * 32767)
      rwa [ratTrunc_of_nonneg (by positivity)] at hcl
  · -- silent buffer: peak is zero, normalization skipped
    have hMz : M = 0 := le_antisymm (not_lt.mp hMpos) hM0
    have hzero : ∀ x ∈ s :: rest, x = 0 := by
      intro x hx
      have := hub x hx
      rw [hMz] at this
      exact abs_nonpos_iff.mp this
    have henc : encode (s :: rest) v =
        some (((s :: rest).map (fun x => x * v)).map quantClamp) := by
      unfold encode
      rw [show maxAbs (s :: rest) = some M from rfl, Option.map_some']
      dsimp only
      rw [if_neg hMpos]
    refine ⟨_, henc, ?_, ?_⟩
    · intro _
      rw [List.eq_replicate_iff]
      constructor
      · simp
      · intro z hz
        simp only [List.map_map, List.mem_map, Function.comp] at hz
        obtain ⟨x, hx, rfl⟩ := hz
        rw [hzero x hx]
        rw [show (0 : ℚ) * v = 0 by ring]
        unfold quantClamp
        rw [show max (-32767) (min 32767 ((0 : ℚ) * 32767)) = 0 by norm_num]
        exact ratTrunc_zero
    · intro ⟨x, hx, hxne⟩
      exact absurd (hzero x hx) hxne

/-- C1 witness: a one-sample buffer holding 1/2 at volume 1/2. -/
theorem C1_encode_peak_witness :
    ∃ out, encode [(1 : ℚ)/2] (1/2) = some out ∧
      ((∀ x ∈ ([(1 : ℚ)/2] : List ℚ), x = 0) →
        out = List.replicate ([(1 : ℚ)/2] : List ℚ).length 0) ∧
      ((∃ x ∈ ([(1 : ℚ)/2] : List ℚ), x ≠ 0) →
        |maxAbsZ out - ratRound ((1 : ℚ)/2 * 32767)| ≤ 1) :=
  C1_encode_peak [(1 : ℚ)/2] (1/2) (by simp) (by norm_num) (by norm_num)

/- No-overflow analysis of the unclamped quantization paths (C10). -/

lemma packAll_isSome (quant : ℚ → ℤ) (l : List ℚ)
    (h : ∀ s ∈ l, -32768 ≤ quant s ∧ quant s ≤ 32767) :
    ∃ out, packAll quant l = some out := by
  induction l with
  | nil => exact ⟨[], rfl⟩
  | cons s rest ih =>
    obtain ⟨out, hout⟩ := ih (fun x hx => h x (List.mem_cons_of_mem s hx))
    refine ⟨quant s :: out, ?_⟩
    have hp : pack (quant s) = some (quant s) := by
      unfold pack
      rw [if_pos (h s (List.mem_cons_self s rest))]
    show packAll quant (s :: rest) = some (quant s :: out)
    unfold packAll
    rw [hp, hout]

lemma quantPlain_bounds {s : ℚ} (h : |s| ≤ 1) :
    -32768 ≤ quantPlain s ∧ quantPlain s ≤ 32767 := by
  have habs : |quantPlain s| ≤ 32767 := by
    unfold quantPlain
    rw [abs_ratTrunc, abs_mul, show |(32767 : ℚ)| = 32767 by norm_num]
    calc ⌊|s| * 32767⌋ ≤ ⌊(1 : ℚ) * 32767⌋ := Int.floor_le_floor (by nlinarith [abs_nonneg s])
      _ = 32767 := by norm_num
  rw [abs_le] at habs
  omega

lemma abs_mul_le_of_unit {a c : ℚ} (h0 : 0 ≤ c) (h1 : c ≤ 1) : |a * c| ≤ |a| := by
  rw [abs_mul]
  calc |a| * |c| ≤ |a| * 1 := by
        apply mul_le_mul_of_nonneg_left _ (abs_nonneg a)
        rw [abs_of_nonneg h0]
        exact h1
    _ = |a| := mul_one _

lemma fadeIn_factor_bounds (m i : ℕ) (hm : 0 < m) (hc : (i : ℚ) < (m : ℚ) * (5/100)) :
    0 ≤ (i : ℚ) / ((m : ℚ) * (5/100)) ∧ (i : ℚ) / ((m : ℚ) * (5/100)) ≤ 1 := by
  have hmq : (0 : ℚ) < (m : ℚ) := by exact_mod_cast hm
  constructor
  · positivity
  · rw [div_le_one (by positivity)]
    exact le_of_lt hc

lemma fadeOut_factor_bounds (m i : ℕ) (hi : i < m) (hc : (m : ℚ) * (8/10) < (i : ℚ)) :
    0 ≤ 1 - (((i : ℚ) - (m : ℚ) * (8/10)) / ((m : ℚ) * (2/10))) ∧
      1 - (((i : ℚ) - (m : ℚ) * (8/10)) / ((m : ℚ) * (2/10))) ≤ 1 := by
  have hmq : (0 : ℚ) < (m : ℚ) := by
    exact_mod_cast (by omega : 0 < m)
  have hiq : (i : ℚ) + 1 ≤ (m : ℚ) := by exact_mod_cast hi
  constructor
  · rw [sub_nonneg, div_le_one (by positivity)]
    linarith
  · have : 0 ≤ ((i : ℚ) - (m : ℚ) * (8/10)) / ((m : ℚ) * (2/10)) :=
      div_nonneg (by linarith) (by positivity)
    linarith

lemma applyFades_abs_le (n i : ℕ) (s : ℚ) (hi : i < n) : |applyFades n i s| ≤ |s| := by
  have hn : 0 < n := by omega
  unfold applyFades
  dsimp only
  by_cases hc1 : (n : ℚ) * (8/10) < (i : ℚ)
  · rw [if_pos hc1]
    obtain ⟨hf0, hf1⟩ := fadeOut_factor_bounds n i hi hc1
    by_cases hc2 : (i : ℚ) < (n : ℚ) * (5/100)
    · rw [if_pos hc2]
      obtain ⟨hg0, hg1⟩ := fadeIn_factor_bounds n i hn hc2
      exact le_trans (abs_mul_le_of_unit hg0 hg1) (abs_mul_le_of_unit hf0 hf1)
    · rw [if_neg hc2]
      exact abs_mul_le_of_unit hf0 hf1
  · rw [if_neg hc1]
    by_cases hc2 : (i : ℚ) < (n : ℚ) * (5/100)
    · rw [if_pos hc2]
      obtain ⟨hg0, hg1⟩ := fadeIn_factor_bounds n i hn hc2
      exact abs_mul_le_of_unit hg0 hg1
    · rw [if_neg hc2]

lemma toneSample_abs_le (env : Env) (f v : ℚ) (n i : ℕ)
    (hsin : ∀ x, |env.sinTau x| ≤ 1) (hv0 : 0 ≤ v) (hi : i < n) :
    |toneSample env f v n i| ≤ v := by
  unfold toneSample
  apply le_trans (applyFades_abs_le n i _ hi)
  rw [abs_mul, abs_of_nonneg hv0]
  calc v * |env.sinTau (f * (i : ℚ) / sampleRate)| ≤ v * 1 :=
      mul_le_mul_of_nonneg_left (hsin _) hv0
    _ = v := mul_one v

lemma foldl_add_abs_le {α : Type} (h : α → ℚ) (B : ℚ) (l : List α)
    (hb : ∀ x ∈ l, |h x| ≤ B) :
    |l.foldl (fun acc x => acc + h x) 0| ≤ (l.length : ℚ) * B := by
  induction l with
  | nil => simp
  | cons y ys ih =>
    rw [List.foldl_cons, foldl_add_shift h ys (0 + h y)]
    have h1 : |ys.foldl (fun acc x => acc + h x) 0| ≤ (ys.length : ℚ) * B :=
      ih (fun x hx => hb x (List.mem_cons_of_mem y hx))
    have h2 : |h y| ≤ B := hb y (List.mem_cons_self y ys)
    have hlen : ((y :: ys).length : ℚ) = (ys.length : ℚ) + 1 := by
      push_cast [List.length_cons]
      ring
    calc |0 + h y + ys.foldl (fun acc x => acc + h x) 0| ≤
          |0 + h y| + |ys.foldl (fun acc x => acc + h x) 0| := abs_add _ _
      _ ≤ B + (ys.length : ℚ) * B := by
          rw [zero_add]
          exact add_le_add h2 h1
      _ = ((y :: ys).length : ℚ) * B := by
          rw [hlen]
          ring

lemma chordSample_abs_le (env : Env) (freqs : List ℚ) (v : ℚ) (n i : ℕ)
    (hsin : ∀ x, |env.sinTau x| ≤ 1) (hv0 : 0 ≤ v) (hi : i < n) :
    |chordSample env freqs v n i| ≤ v := by
  unfold chordSample
  apply le_trans (applyFades_abs_le n i _ hi)
  cases freqs with
  | nil => simpa using hv0
  | cons f fs =>
    have hb : ∀ freq ∈ f :: fs, |v * env.sinTau (freq * (i : ℚ) / sampleRate)| ≤ v := by
      intro freq _
      rw [abs_mul, abs_of_nonneg hv0]
      calc v * |env.sinTau (freq * (i : ℚ) / sampleRate)| ≤ v * 1 :=
          mul_le_mul_of_nonneg_left (hsin _) hv0
        _ = v := mul_one v
    have hfold := foldl_add_abs_le
      (fun freq => v * env.sinTau (freq * (i : ℚ) / sampleRate)) v (f :: fs) hb
    have hlenpos : (0 : ℚ) < ((f :: fs).length : ℚ) := by
      rw [List.length_cons]
      push_cast
      positivity
    rw [abs_div, abs_of_nonneg (le_of_lt hlenpos), div_le_iff₀ hlenpos]
    calc |(f :: fs).foldl (fun acc freq => acc + v * env.sinTau (freq * (i : ℚ) / sampleRate)) 0|
        ≤ ((f :: fs).length : ℚ) * v := hfold
      _ = v * ((f :: fs).length : ℚ) := mul_comm _ _

lemma melodyBody_abs_le (env : Env) (f : ℚ) (m i : ℕ)
    (hsin : ∀ x, |env.sinTau x| ≤ 1) (hi : i < m) :
    |melodyBody env f m i| ≤ 25/100 := by
  have hm : 0 < m := by omega
  have hbase : |(25/100 : ℚ) * env.sinTau (f * (i : ℚ) / sampleRate)| ≤ 25/100 := by
    rw [abs_mul, show |(25/100 : ℚ)| = 25/100 by norm_num]
    calc (25/100 : ℚ) * |env.sinTau (f * (i : ℚ) / sampleRate)| ≤ (25/100) * 1 :=
        mul_le_mul_of_nonneg_left (hsin _) (by norm_num)
      _ = 25/100 := mul_one _
  unfold melodyBody
  dsimp only
  by_cases hc2 : (i : ℚ) < (m : ℚ) * (5/100)
  · rw [if_pos hc2]
    obtain ⟨hg0, hg1⟩ := fadeIn_factor_bounds m i hm hc2
    by_cases hc1 : (m : ℚ) * (8/10) < (i : ℚ)
    · rw [if_pos hc1]
      obtain ⟨hf0, hf1⟩ := fadeOut_factor_bounds m i hi hc1
      exact le_trans (abs_mul_le_of_unit hf0 hf1) (le_trans (abs_mul_le_of_unit hg0 hg1) hbase)
    · rw [if_neg hc1]
      exact le_trans (abs_mul_le_of_unit hg0 hg1) hbase
  · rw [if_neg hc2]
    by_cases hc1 : (m : ℚ) * (8/10) < (i : ℚ)
    · rw [if_pos hc1]
      obtain ⟨hf0, hf1⟩ := fadeOut_factor_bounds m i hi hc1
      exact le_trans (abs_mul_le_of_unit hf0 hf1) hbase
    · rw [if_neg hc1]
      exact hbase

/- Membership bound through one accumulation pass. -/

lemma accum_mem_bound (f : ℕ → ℚ) (start m : ℕ) (buf : List ℚ) (B C : ℚ)
    (hC : 0 ≤ C) (hbuf : ∀ x ∈ buf, |x| ≤ B) (hf : ∀ i, i < m → |f i| ≤ C) :
    ∀ x ∈ accum f start m buf, |x| ≤ B + C := by
  intro x hx
  obtain ⟨j, hj, rfl⟩ := List.mem_iff_getElem.mp hx
  have hjb : j < buf.length := by
    rw [accum_length] at hj
    exact hj
  rw [← List.getD_eq_getElem _ 0 hj, accum_getD _ _ _ _ _ hjb]
  have hmem : buf.getD j 0 ∈ buf := by
    rw [List.getD_eq_getElem _ 0 hjb]
    exact List.getElem_mem _
  have h1 : |buf.getD j 0| ≤ B := hbuf _ hmem
  have h2 : |if start ≤ j ∧ j < start + m then f (j - start) else 0| ≤ C := by
    split_ifs with hc
    · exact hf _ (by omega)
    · simpa using hC
  calc |buf.getD j 0 + if start ≤ j ∧ j < start + m then f (j - start) else 0| ≤
        |buf.getD j 0| + |if start ≤ j ∧ j < start + m then f (j - start) else 0| := abs_add _ _
    _ ≤ B + C := add_le_add h1 h2

lemma melodyStep_mem_bound (env : Env) (hsin : ∀ x, |env.sinTau x| ≤ 1)
    (buf : List ℚ) (ft : ℚ × ℚ × ℚ) (B : ℚ) (hB : ∀ x ∈ buf, |x| ≤ B) :
    ∀ x ∈ melodyStep env buf ft, |x| ≤ B + 25/100 := by
  unfold melodyStep
  exact accum_mem_bound _ _ _ _ B (25/100) (by norm_num) hB
    (fun i hi => melodyBody_abs_le env _ _ i hsin hi)

lemma foldl_melodyStep_bound (env : Env) (hsin : ∀ x, |env.sinTau x| ≤ 1) :
    ∀ (tones : List (ℚ × ℚ × ℚ)) (buf : List ℚ) (B : ℚ), (∀ x ∈ buf, |x| ≤ B) →
      ∀ x ∈ tones.foldl (melodyStep env) buf, |x| ≤ B + (tones.length : ℚ) * (25/100) := by
  intro tones
  induction tones with
  | nil =>
    intro buf B hB x hx
    have hx' : x ∈ buf := hx
    calc |x| ≤ B := hB x hx'
      _ ≤ B + (([] : List (ℚ × ℚ × ℚ)).length : ℚ) * (25/100) := by
          simp
  | cons t ts ih =>
    intro buf B hB x hx
    have hx' : x ∈ ts.foldl (melodyStep env) (melodyStep env buf t) := hx
    have hstep : ∀ y ∈ melodyStep env buf t, |y| ≤ B + 25/100 :=
      melodyStep_mem_bound env hsin buf t B hB
    have hb := ih (melodyStep env buf t) (B + 25/100) hstep x hx'
    calc |x| ≤ B + 25/100 + (ts.length : ℚ) * (25/100) := hb
      _ = B + ((t :: ts).length : ℚ) * (25/100) := by
          push_cast [List.length_cons]
          ring

lemma melodySamples_mem_abs_le (env : Env) (hsin : ∀ x, |env.sinTau x| ≤ 1) :
    ∀ x ∈ melodySamples env, |x| ≤ 1 := by
  intro x hx
  have h0 : ∀ y ∈ initBuffer (6/10), |y| ≤ 0 := by
    intro y hy
    rw [List.eq_of_mem_replicate hy]
    simp
  have hx' : x ∈ melodyTones.foldl (melodyStep env) (initBuffer (6/10)) := hx
  have hb := foldl_melodyStep_bound env hsin melodyTones (initBuffer (6/10)) 0 h0 x hx'
  have hlen : (melodyTones.length : ℚ) = 3 := by
    rw [show melodyTones.length = 3 from rfl]
    norm_num
  rw [hlen] at hb
  calc |x| ≤ 0 + 3 * (25/100) := hb
    _ ≤ 1 := by norm_num

/-- C10: the quantization paths that do not clamp never overflow the 16-bit
pack: with volume in [0,1] every generate_tone and generate_chord sample is
bounded by the volume in magnitude (the chord sum is divided by the frequency
count, all fade multipliers lie in [0,1]), and every melody sample is bounded
by the summed tone amplitudes 3 * 0.25; hence int(sample * 32767) always fits
a signed 16-bit integer and packing succeeds on all three paths. -/
theorem C10_no_overflow (env : Env) (freqs : List ℚ) (f d v : ℚ)
    (hsin : ∀ x, |env.sinTau x| ≤ 1) (hv0 : 0 ≤ v) (hv1 : v ≤ 1) :
    (∃ out, generateTone env f d v = some out) ∧
      (∃ out, generateChord env freqs d v = some out) ∧
      (∃ out, melodyQuantized env = some out) := by
  refine ⟨?_, ?_, ?_⟩
  · apply packAll_isSome
    intro s hs
    obtain ⟨i, hi, rfl⟩ := List.mem_map.mp hs
    apply quantPlain_bounds
    exact le_trans
      (toneSample_abs_le env f v _ i hsin hv0 (List.mem_range.mp hi)) hv1
  · apply packAll_isSome
    intro s hs
    obtain ⟨i, hi, rfl⟩ := List.mem_map.mp hs
    apply quantPlain_bounds
    exact le_trans
      (chordSample_abs_le env freqs v _ i hsin hv0 (List.mem_range.mp hi)) hv1
  · apply packAll_isSome
    intro s hs
    exact quantPlain_bounds (melodySamples_mem_abs_le env hsin s hs)

/-- C10 witness at the zero oscillator, volume 1/2, the bell chord
frequencies and the subtle-tone parameters. -/
theorem C10_no_overflow_witness :
    (∃ out, generateTone envZero 880 (15/100) (1/2) = some out) ∧
      (∃ out, generateChord envZero [800, 1000, 1200] (15/100) (1/2) = some out) ∧
      (∃ out, melodyQuantized envZero = some out) :=
  C10_no_overflow envZero [800, 1000, 1200] 880 (15/100) (1/2)
    (fun x => by simp [envZero]) (by norm_num) (by norm_num)

/- Randomness and determinism (C2). -/

lemma numSamplesClick : numSamples (25/1000) = 1102 :=
  numSamples_eq _ 1102 (by norm_num [sampleRate]) (by norm_num [sampleRate])

lemma clickStep_getD (env : Env) (r : ℕ → ℚ) (v : ℚ) (cs : ℕ) (bp : List ℚ × ℕ) (k j : ℕ)
    (hall : (ratTrunc ((k : ℚ) * (25/1000 + 35/1000) * sampleRate)).toNat + cs ≤ bp.1.length)
    (hj : j < bp.1.length) :
    (clickStep env r v cs bp k).1.getD j 0 =
      bp.1.getD j 0 +
        (if (ratTrunc ((k : ℚ) * (25/1000 + 35/1000) * sampleRate)).toNat ≤ j ∧
            j < (ratTrunc ((k : ℚ) * (25/1000 + 35/1000) * sampleRate)).toNat + cs then
          clickBody env r v (1 + (r bp.2 - 1/2) * (1/10)) cs
            (j - (ratTrunc ((k : ℚ) * (25/1000 + 35/1000) * sampleRate)).toNat)
            (bp.2 + 1 + (j - (ratTrunc ((k : ℚ) * (25/1000 + 35/1000) * sampleRate)).toNat))
        else 0) := by
  unfold clickStep
  exact accumPos_getD _ _ _ _ _ hall hj

lemma genClick_one_getD (env : Env) (r : ℕ → ℚ) (v : ℚ) (j : ℕ) (hj : j < 1102) :
    (generateKeyboardClick env r 1 v).getD j 0 =
      clickBody env r v (1 + (r 0 - 1/2) * (1/10)) 1102 j (1 + j) := by
  have hn : numSamples ((25/1000) * ((1 : ℕ) : ℚ) + (35/1000) * (((1 : ℕ) : ℚ) - 1)) = 1102 := by
    apply numSamples_eq _ 1102
    · push_cast
      norm_num [sampleRate]
    · push_cast
      norm_num [sampleRate]
  have hstart : ((ratTrunc (((0 : ℕ) : ℚ) * (25/1000 + 35/1000) * sampleRate)).toNat) = 0 := by
    rw [show (((0 : ℕ) : ℚ) * (25/1000 + 35/1000) * sampleRate) = 0 by push_cast; ring,
      ratTrunc_zero]
    rfl
  have hunfold : generateKeyboardClick env r 1 v =
      (clickStep env r v (numSamples (25/1000))
        (List.replicate
          (numSamples ((25/1000) * ((1 : ℕ) : ℚ) + (35/1000) * (((1 : ℕ) : ℚ) - 1))) 0, 0)
        0).1 := by
    rw [generateKeyboardClick]
    rw [show List.range 1 = [0] from rfl, List.foldl_cons, List.foldl_nil]
  rw [hunfold]
  rw [clickStep_getD env r v (numSamples (25/1000)) _ 0 j
    (by
      dsimp only
      rw [hstart, numSamplesClick, List.length_replicate, hn])
    (by
      dsimp only
      rw [List.length_replicate, hn]
      exact hj)]
  dsimp only
  rw [hstart, numSamplesClick]
  rw [if_pos (by omega)]
  rw [hn, getD_replicate 1102 j hj]
  rw [Nat.sub_zero]
  rw [show 0 + 1 + j = 1 + j by omega]
  rw [zero_add]

/-- C2: the claim says the random seed is an explicit per-call parameter and
never implicit global state; generate_keyboard_click takes no seed parameter
at all and reads the implicit module-level generator, so two calls with
identical arguments but different ambient generator states produce different
sample buffers, refuting the claim. Here the two ambient streams are the
constant 0 and the constant 1/2, all other inputs equal. -/
theorem C2_seed_cex :
    generateKeyboardClick envZero (fun _ : ℕ => 0) 1 1 ≠
      generateKeyboardClick envZero (fun _ : ℕ => (1 : ℚ)/2) 1 1 := by
  intro h
  have hA := genClick_one_getD envZero (fun _ : ℕ => 0) 1 1 (by norm_num)
  have hB := genClick_one_getD envZero (fun _ : ℕ => (1 : ℚ)/2) 1 1 (by norm_num)
  have hval := congrArg (fun l : List ℚ => l.getD 1 0) h
  dsimp only at hval
  rw [hA, hB] at hval
  unfold clickBody at hval
  norm_num [envZero, List.foldl_cons, List.foldl_nil] at hval

/- Congruence of the mech generator in its seeded random source. -/

lemma contrib_rand_congr (env env' : Env) (e : SoundEvent)
    (hs : env'.sinTau = env.sinTau) (he : env'.exp = env.exp)
    (hr : ∀ seed, e.noiseSeed = some seed → ∀ i, env'.rand seed i = env.rand seed i) :
    contrib env' e = contrib env e := by
  funext i
  unfold contrib
  cases hn : e.noiseSeed with
  | none =>
    dsimp only
    rw [hs, he]
  | some seed =>
    dsimp only
    rw [he, hr seed hn i]

lemma applyEvent_rand_congr (env env' : Env) (e : SoundEvent) (buf : List ℚ)
    (hs : env'.sinTau = env.sinTau) (he : env'.exp = env.exp)
    (hr : ∀ seed, e.noiseSeed = some seed → ∀ i, env'.rand seed i = env.rand seed i) :
    applyEvent env' e buf = applyEvent env e buf := by
  unfold applyEvent
  rw [contrib_rand_congr env env' e hs he hr]

lemma foldl_congr_fn {α β : Type} (f g : β → α → β) :
    ∀ (l : List α) (b : β), (∀ x ∈ l, ∀ y, f y x = g y x) → l.foldl f b = l.foldl g b := by
  intro l
  induction l with
  | nil =>
    intro b _
    rfl
  | cons x xs ih =>
    intro b h
    have h1 : f b x = g b x := h x (List.mem_cons_self x xs) b
    calc (x :: xs).foldl f b = xs.foldl f (f b x) := rfl
      _ = xs.foldl f (g b x) := by rw [h1]
      _ = xs.foldl g (g b x) := ih (g b x) (fun z hz => h z (List.mem_cons_of_mem x hz))
      _ = (x :: xs).foldl g b := rfl

lemma foldl_applyEvent_rand_congr (env env' : Env)
    (hs : env'.sinTau = env.sinTau) (he : env'.exp = env.exp)
    (events : List SoundEvent) (buf : List ℚ)
    (h : ∀ e ∈ events, ∀ seed, e.noiseSeed = some seed →
      ∀ i, env'.rand seed i = env.rand seed i) :
    events.foldl (fun b e => applyEvent env' e b) buf =
      events.foldl (fun b e => applyEvent env e b) buf :=
  foldl_congr_fn (fun b e => applyEvent env' e b) (fun b e => applyEvent env e b) events buf
    (fun e hmem y => applyEvent_rand_congr env env' e y hs he (h e hmem))

/-- C2 (amended): determinism holds because the seeds are hard-coded constants:
the full mech pipeline (four components mixed, then normalize, volume,
quantize) produces identical output across two runs whenever the two runs use
the same sin/exp and their random sources agree on the stream after the
hard-coded seed 42, whatever they return at any other seed — the seed is not a
per-call parameter but a constant fed to the shared module generator, and only
the stream it determines matters. -/
theorem C2_determinism_amended (env env' : Env) (v : ℚ)
    (hs : env'.sinTau = env.sinTau) (he : env'.exp = env.exp)
    (h42 : ∀ i, env'.rand 42 i = env.rand 42 i) :
    generateMechanicalKeyboardClick env' v = generateMechanicalKeyboardClick env v := by
  have hmem : ∀ e ∈ [mechClick, mechClack, mechThock, mechNoise], ∀ seed,
      e.noiseSeed = some seed → ∀ i, env'.rand seed i = env.rand seed i := by
    intro e hmem seed hseed i
    simp only [List.mem_cons, List.not_mem_nil, or_false] at hmem
    rcases hmem with rfl | rfl | rfl | rfl
    · simp [mechClick] at hseed
    · simp [mechClack] at hseed
    · simp [mechThock] at hseed
    · have hseed42 : seed = 42 := by
        have h42eq := hseed
        simp [mechNoise] at h42eq
        omega
      rw [hseed42]
      exact h42 i
  unfold generateMechanicalKeyboardClick synthesize
  rw [foldl_applyEvent_rand_congr env env' hs he
    [mechClick, mechClack, mechThock, mechNoise] (initBuffer (6/100)) hmem]

/-- C2 witness: a source that matches the seeded stream at seed 42 and is
garbage elsewhere still reproduces the mech output byte for byte. -/
theorem C2_determinism_amended_witness :
    generateMechanicalKeyboardClick
        (Env.mk envZero.sinTau envZero.exp
          (fun s i => if s = 42 then envZero.rand 42 i else 7)) (1/2) =
      generateMechanicalKeyboardClick envZero (1/2) :=
  C2_determinism_amended envZero
    (Env.mk envZero.sinTau envZero.exp (fun s i => if s = 42 then envZero.rand 42 i else 7))
    (1/2) rfl rfl (fun i => by simp)

end Notifier
